import Mathlib

/-!
Verification of the wget2go download engine core against its
natural-language specification.

The Go sources are shallowly embedded: pure computations become Lean
functions over `Nat`/`Int`/`String`; the filesystem is an association
list from path to size (or a trace of filesystem operations); network
responses are explicit records supplied as parameters.  Go `int64`
arithmetic is modelled on `Nat`/`Int`; all quantities handled by the
claims are non-negative and far below `2^63`, where the two agree.
-/

namespace Wget2go

/-- `strContainsSub hay needle` models Go `strings.Contains hay needle`:
`needle` occurs as a contiguous substring of `hay`. -/
def strContainsSub (hay needle : String) : Bool :=
  hay.data.tails.any (fun t => needle.data.isPrefixOf t)

theorem strContainsSub_iff (hay needle : String) :
    strContainsSub hay needle = true ↔ needle.data <:+: hay.data := by
  unfold strContainsSub
  rw [List.any_eq_true]
  constructor
  · rintro ⟨t, ht, hpre⟩
    rw [List.mem_tails] at ht
    rw [List.isPrefixOf_iff_prefix] at hpre
    exact List.infix_iff_prefix_suffix.mpr ⟨t, hpre, ht⟩
  · intro h
    obtain ⟨t, hpre, hsuf⟩ := List.infix_iff_prefix_suffix.mp h
    exact ⟨t, (List.mem_tails _ _).mpr hsuf, List.isPrefixOf_iff_prefix.mpr hpre⟩

/-! ## Shared data model (internal/core/types/types.go) -/

/-- `TaskStatus` from types.go (`TaskPending … TaskPaused`). -/
inductive TaskStatus where
  | TaskPending
  | TaskDownloading
  | TaskCompleted
  | TaskFailed
  | TaskPaused
  deriving Repr, DecidableEq

/-- The integer value of a `TaskStatus` (Go `iota` order). -/
def TaskStatus.toInt : TaskStatus → Nat
  | .TaskPending => 0
  | .TaskDownloading => 1
  | .TaskCompleted => 2
  | .TaskFailed => 3
  | .TaskPaused => 4

/-- `Chunk` from types.go.  The Go field `End` is a Lean keyword, so it is
called `stop` here; all other fields keep their source names. -/
structure Chunk where
  index : Nat
  start : Nat
  stop : Nat
  size : Nat
  completed : Nat
  status : TaskStatus
  deriving Repr, DecidableEq

/-! ## C1: chunk partition (manager.go `downloadWithChunks` / `calculateNumChunks`) -/

/-- `calculateNumChunks` (manager.go lines 856-867): ceiling division with a
guard returning 1 for a non-positive chunk size. -/
def calculateNumChunks (fileSize chunkSize : Nat) : Nat :=
  if chunkSize ≤ 0 then 1
  else
    let numChunks := fileSize / chunkSize
    if fileSize % chunkSize ≠ 0 then numChunks + 1 else numChunks

/-- The chunk plan built by `downloadWithChunks` (manager.go lines 406-444):
cap the chunk count at `MaxThreads`, give every chunk `contentLength / n`
bytes, and let the last chunk absorb the remainder. -/
def downloadWithChunksPlan (contentLength chunkSize maxThreads : Nat) :
    List Chunk :=
  let numChunks0 := calculateNumChunks contentLength chunkSize
  let numChunks := if numChunks0 > maxThreads then maxThreads else numChunks0
  let chunkSizeEach := contentLength / numChunks
  let lastChunkSize := contentLength - chunkSizeEach * (numChunks - 1)
  (List.range numChunks).map (fun i =>
    let start := i * chunkSizeEach
    let stop :=
      if i = numChunks - 1 then start + lastChunkSize - 1
      else start + chunkSizeEach - 1
    { index := i, start := start, stop := stop,
      size := stop - start + 1, completed := 0,
      status := TaskStatus.TaskPending })

theorem calculateNumChunks_eq_ceil (fileSize chunkSize : ℕ) (hcs : 0 < chunkSize) :
    calculateNumChunks fileSize chunkSize = (fileSize + chunkSize - 1) / chunkSize := by
  unfold calculateNumChunks
  rw [if_neg (by omega)]
  have hmod := Nat.div_add_mod fileSize chunkSize
  have hlt : fileSize % chunkSize < chunkSize := Nat.mod_lt _ hcs
  by_cases h : fileSize % chunkSize = 0
  · rw [if_neg (by simpa using h)]
    have h1 : fileSize + chunkSize - 1 = chunkSize * (fileSize / chunkSize) + (chunkSize - 1) := by
      omega
    rw [h1, Nat.mul_add_div hcs,
      Nat.div_eq_of_lt (show chunkSize - 1 < chunkSize by omega)]
    omega
  · rw [if_pos (by simpa using h)]
    have h1 : fileSize + chunkSize - 1 =
        chunkSize * (fileSize / chunkSize + 1) + (fileSize % chunkSize - 1) := by
      have hms : chunkSize * (fileSize / chunkSize + 1) =
          chunkSize * (fileSize / chunkSize) + chunkSize := by ring
      omega
    rw [h1, Nat.mul_add_div hcs,
      Nat.div_eq_of_lt (show fileSize % chunkSize - 1 < chunkSize by omega)]

theorem calculateNumChunks_pos (fileSize chunkSize : ℕ) (hfs : 0 < fileSize) :
    1 ≤ calculateNumChunks fileSize chunkSize := by
  by_cases hcs : chunkSize ≤ 0
  · unfold calculateNumChunks
    rw [if_pos hcs]
  · have hcs' : 0 < chunkSize := by omega
    rw [calculateNumChunks_eq_ceil _ _ hcs', Nat.one_le_div_iff hcs']
    omega

theorem calculateNumChunks_le (fileSize chunkSize : ℕ) (hfs : 0 < fileSize)
    (hcs : 0 < chunkSize) : calculateNumChunks fileSize chunkSize ≤ fileSize := by
  rw [calculateNumChunks_eq_ceil _ _ hcs]
  have h1 : fileSize + chunkSize - 1 ≤ fileSize * chunkSize := by
    have e1 : chunkSize - 1 + 1 = chunkSize := by omega
    have e2 : fileSize * chunkSize = fileSize * (chunkSize - 1) + fileSize := by
      conv_lhs => rw [← e1]
      ring
    have e3 : 1 * (chunkSize - 1) ≤ fileSize * (chunkSize - 1) :=
      Nat.mul_le_mul_right _ hfs
    omega
  calc (fileSize + chunkSize - 1) / chunkSize ≤ fileSize * chunkSize / chunkSize :=
        Nat.div_le_div_right h1
    _ = fileSize := Nat.mul_div_cancel _ hcs

/-- Normal form of a plan entry: the `i`-th chunk of
`downloadWithChunksPlan cl cs mt`. -/
theorem downloadWithChunksPlan_length (cl cs mt : ℕ) :
    (downloadWithChunksPlan cl cs mt).length = min (calculateNumChunks cl cs) mt := by
  unfold downloadWithChunksPlan
  simp only [List.length_map, List.length_range]
  rw [Nat.min_def]
  split <;> split <;> omega

theorem downloadWithChunksPlan_get (cl cs mt i : ℕ)
    (hi : i < (downloadWithChunksPlan cl cs mt).length) :
    (downloadWithChunksPlan cl cs mt).get ⟨i, hi⟩ =
      { index := i,
        start := i * (cl / min (calculateNumChunks cl cs) mt),
        stop :=
          if i = min (calculateNumChunks cl cs) mt - 1 then
            i * (cl / min (calculateNumChunks cl cs) mt) +
              (cl - cl / min (calculateNumChunks cl cs) mt *
                (min (calculateNumChunks cl cs) mt - 1)) - 1
          else
            i * (cl / min (calculateNumChunks cl cs) mt) +
              cl / min (calculateNumChunks cl cs) mt - 1,
        size :=
          (if i = min (calculateNumChunks cl cs) mt - 1 then
            i * (cl / min (calculateNumChunks cl cs) mt) +
              (cl - cl / min (calculateNumChunks cl cs) mt *
                (min (calculateNumChunks cl cs) mt - 1)) - 1
          else
            i * (cl / min (calculateNumChunks cl cs) mt) +
              cl / min (calculateNumChunks cl cs) mt - 1) -
            i * (cl / min (calculateNumChunks cl cs) mt) + 1,
        completed := 0,
        status := TaskStatus.TaskPending } := by
  have hmin : (if calculateNumChunks cl cs > mt then mt else calculateNumChunks cl cs) =
      min (calculateNumChunks cl cs) mt := by
    rw [Nat.min_def]; split <;> split <;> omega
  unfold downloadWithChunksPlan
  simp only [List.get_eq_getElem, List.getElem_map, List.getElem_range, hmin]

/-- C1: for every `content_length > 0`, `chunk_size > 0` and `max_threads ≥ 1`,
the chunk plan built by `downloadWithChunks` has exactly
`n = min(⌈content_length / chunk_size⌉, max_threads)` chunks; chunk `i`
(0-based) starts at `i * ⌊content_length / n⌋`, every chunk's `Size` equals
`End - Start + 1` (with `Start ≤ End`), the last chunk absorbs the remainder
(it ends at `content_length - 1`), and the `[Start, End]` ranges are
contiguous, pairwise disjoint, start at 0, and cover `[0, content_length)`
with no gaps and no overlaps. -/
theorem chunk_plan_partition (cl cs mt : ℕ)
    (hcl : 0 < cl) (hcs : 0 < cs) (hmt : 1 ≤ mt) :
    (downloadWithChunksPlan cl cs mt).length = min ((cl + cs - 1) / cs) mt ∧
    (∀ i (hi : i < (downloadWithChunksPlan cl cs mt).length),
      ((downloadWithChunksPlan cl cs mt).get ⟨i, hi⟩).index = i ∧
      ((downloadWithChunksPlan cl cs mt).get ⟨i, hi⟩).start =
        i * (cl / min ((cl + cs - 1) / cs) mt) ∧
      ((downloadWithChunksPlan cl cs mt).get ⟨i, hi⟩).size =
        ((downloadWithChunksPlan cl cs mt).get ⟨i, hi⟩).stop -
          ((downloadWithChunksPlan cl cs mt).get ⟨i, hi⟩).start + 1 ∧
      ((downloadWithChunksPlan cl cs mt).get ⟨i, hi⟩).start ≤
        ((downloadWithChunksPlan cl cs mt).get ⟨i, hi⟩).stop) ∧
    (∀ i (hi : i < (downloadWithChunksPlan cl cs mt).length),
      i = (downloadWithChunksPlan cl cs mt).length - 1 →
      ((downloadWithChunksPlan cl cs mt).get ⟨i, hi⟩).stop = cl - 1) ∧
    (∀ i (hi : i < (downloadWithChunksPlan cl cs mt).length)
        (hj : i + 1 < (downloadWithChunksPlan cl cs mt).length),
      ((downloadWithChunksPlan cl cs mt).get ⟨i + 1, hj⟩).start =
        ((downloadWithChunksPlan cl cs mt).get ⟨i, hi⟩).stop + 1) ∧
    (∀ i j (hi : i < (downloadWithChunksPlan cl cs mt).length)
        (hj : j < (downloadWithChunksPlan cl cs mt).length), i < j →
      ((downloadWithChunksPlan cl cs mt).get ⟨i, hi⟩).stop <
        ((downloadWithChunksPlan cl cs mt).get ⟨j, hj⟩).start) ∧
    (∀ h0 : 0 < (downloadWithChunksPlan cl cs mt).length,
      ((downloadWithChunksPlan cl cs mt).get ⟨0, h0⟩).start = 0) ∧
    (∀ x, x < cl → ∃ i, ∃ hi : i < (downloadWithChunksPlan cl cs mt).length,
      ((downloadWithChunksPlan cl cs mt).get ⟨i, hi⟩).start ≤ x ∧
        x ≤ ((downloadWithChunksPlan cl cs mt).get ⟨i, hi⟩).stop) := by
  set plan := downloadWithChunksPlan cl cs mt with hplandef
  set n := min ((cl + cs - 1) / cs) mt with hndef
  have hceil : calculateNumChunks cl cs = (cl + cs - 1) / cs :=
    calculateNumChunks_eq_ceil _ _ hcs
  have hne : min (calculateNumChunks cl cs) mt = n := by
    show _ = min ((cl + cs - 1) / cs) mt
    rw [hceil]
  have hn0 : 1 ≤ calculateNumChunks cl cs := calculateNumChunks_pos _ _ hcl
  have hn0cl : calculateNumChunks cl cs ≤ cl := calculateNumChunks_le _ _ hcl hcs
  have hnpos : 1 ≤ n := by rw [← hne]; exact le_min hn0 hmt
  have hncl : n ≤ cl := by rw [← hne]; exact le_trans (Nat.min_le_left _ _) hn0cl
  have hcsz : 1 ≤ cl / n := (Nat.one_le_div_iff (by omega)).mpr hncl
  have hmuln : cl / n * n ≤ cl := Nat.div_mul_le_self cl n
  have hmuln1 : cl / n * (n - 1) + cl / n ≤ cl := by
    have e : cl / n * (n - 1) + cl / n = cl / n * n := by
      have e1 : n - 1 + 1 = n := by omega
      calc cl / n * (n - 1) + cl / n = cl / n * (n - 1 + 1) := by ring
        _ = cl / n * n := by rw [e1]
    omega
  have hlen : plan.length = n := by
    show (downloadWithChunksPlan cl cs mt).length = n
    rw [downloadWithChunksPlan_length, hne]
  have hget : ∀ i (hi : i < plan.length),
      plan.get ⟨i, hi⟩ =
        { index := i,
          start := i * (cl / n),
          stop := if i = n - 1 then i * (cl / n) + (cl - cl / n * (n - 1)) - 1
                  else i * (cl / n) + cl / n - 1,
          size := (if i = n - 1 then i * (cl / n) + (cl - cl / n * (n - 1)) - 1
                  else i * (cl / n) + cl / n - 1) - i * (cl / n) + 1,
          completed := 0,
          status := TaskStatus.TaskPending } := by
    intro i hi
    have h := downloadWithChunksPlan_get cl cs mt i hi
    rw [hne] at h
    exact h
  have hmono : ∀ i j : ℕ, i ≤ j → i * (cl / n) ≤ j * (cl / n) :=
    fun i j hij => Nat.mul_le_mul_right _ hij
  have hsucc : ∀ i : ℕ, (i + 1) * (cl / n) = i * (cl / n) + cl / n := by
    intro i; ring
  have hlaststop : ∀ i, i = n - 1 →
      i * (cl / n) + (cl - cl / n * (n - 1)) - 1 = cl - 1 := by
    intro i hi
    subst hi
    have e : (n - 1) * (cl / n) = cl / n * (n - 1) := by ring
    omega
  have hindex : ∀ i (hi : i < plan.length), (plan.get ⟨i, hi⟩).index = i := by
    intro i hi; rw [hget i hi]
  have hstart : ∀ i (hi : i < plan.length),
      (plan.get ⟨i, hi⟩).start = i * (cl / n) := by
    intro i hi; rw [hget i hi]
  have hsize : ∀ i (hi : i < plan.length),
      (plan.get ⟨i, hi⟩).size =
        (plan.get ⟨i, hi⟩).stop - (plan.get ⟨i, hi⟩).start + 1 := by
    intro i hi; rw [hget i hi]
  have hstoplast : ∀ i (hi : i < plan.length), i = n - 1 →
      (plan.get ⟨i, hi⟩).stop = cl - 1 := by
    intro i hi h
    rw [hget i hi]
    show (if i = n - 1 then _ else _) = _
    rw [if_pos h]
    exact hlaststop i h
  have hstopmid : ∀ i (hi : i < plan.length), i ≠ n - 1 →
      (plan.get ⟨i, hi⟩).stop = i * (cl / n) + cl / n - 1 := by
    intro i hi h
    rw [hget i hi]
    show (if i = n - 1 then _ else _) = _
    rw [if_neg h]
  refine ⟨hlen, ?_, ?_, ?_, ?_, ?_, ?_⟩
  · intro i hi
    refine ⟨hindex i hi, hstart i hi, hsize i hi, ?_⟩
    rw [hstart i hi]
    by_cases h : i = n - 1
    · rw [hstoplast i hi h]
      have hilt : i < n := by rw [← hlen]; exact hi
      have h1 : i * (cl / n) ≤ (n - 1) * (cl / n) := hmono i (n - 1) (by omega)
      have h2 : (n - 1) * (cl / n) = cl / n * (n - 1) := by ring
      omega
    · rw [hstopmid i hi h]
      omega
  · intro i hi heq
    exact hstoplast i hi (by rw [hlen] at heq; exact heq)
  · intro i hi hj
    have hi1 : i + 1 < n := by rw [← hlen]; exact hj
    rw [hstart (i + 1) hj, hstopmid i hi (by omega)]
    have := hsucc i
    omega
  · intro i j hi hj hij
    have hjn : j < n := by rw [← hlen]; exact hj
    rw [hstopmid i hi (by omega), hstart j hj]
    have h1 : (i + 1) * (cl / n) ≤ j * (cl / n) := hmono (i + 1) j (by omega)
    have := hsucc i
    omega
  · intro h0
    rw [hstart 0 h0]
    omega
  · intro x hx
    by_cases hxi : x / (cl / n) < n - 1
    · refine ⟨x / (cl / n), ?_, ?_⟩
      · rw [hlen]; omega
      · rw [hstart _ _, hstopmid _ _ (by omega)]
        have h1 : x / (cl / n) * (cl / n) ≤ x := Nat.div_mul_le_self x (cl / n)
        have h2 := Nat.div_add_mod x (cl / n)
        have h3 : x % (cl / n) < cl / n := Nat.mod_lt _ (by omega)
        have h4 : (cl / n) * (x / (cl / n)) = x / (cl / n) * (cl / n) := by ring
        omega
    · refine ⟨n - 1, ?_, ?_⟩
      · rw [hlen]; omega
      · rw [hstart _ _, hstoplast _ _ rfl]
        constructor
        · have h1 : (n - 1) * (cl / n) ≤ x / (cl / n) * (cl / n) :=
            hmono (n - 1) (x / (cl / n)) (by omega)
          have h2 : x / (cl / n) * (cl / n) ≤ x := Nat.div_mul_le_self x (cl / n)
          omega
        · omega

/-! ## C8: `CalculateETA` (internal/core/utils/utils.go lines 132-140) -/

/-- C1 witness: the partition theorem applied at `content_length = 10`,
`chunk_size = 4`, `max_threads = 5` (which yields 3 chunks). -/
theorem chunk_plan_partition_witness :
    0 < 10 ∧ 0 < 4 ∧ 1 ≤ 5 ∧
      (downloadWithChunksPlan 10 4 5).length = min ((10 + 4 - 1) / 4) 5 :=
  ⟨by decide, by decide, by decide,
    (chunk_plan_partition 10 4 5 (by decide) (by decide) (by decide)).1⟩

/-- `CalculateETA` from utils.go, as the exact number of seconds returned
(the Go code computes `float64(total-downloaded)/float64(speed)` seconds and
converts to a `time.Duration`; we model the exact rational value, which the
float computation reproduces for the small integer inputs used below).
Note the source has no `downloaded ≥ total` guard. -/
def calculateETA (total downloaded speed : Int) : ℚ :=
  if speed ≤ 0 then 0
  else ((total : ℚ) - (downloaded : ℚ)) / (speed : ℚ)

/-- C8 counterexample: with `total = 0`, `downloaded = 1`, `speed = 1` we have
`downloaded ≥ total` and `speed > 0`, yet `CalculateETA` returns `-1` second
(the source has no `done ≥ total` guard), contradicting the claim that the
result is `0` in that case and never negative. -/
theorem calculateETA_claim_false :
    (0 : Int) ≤ 1 ∧ (0 : Int) < 1 ∧
      calculateETA 0 1 1 ≠ 0 ∧ calculateETA 0 1 1 < 0 := by
  have hval : calculateETA 0 1 1 = -1 := by
    unfold calculateETA
    norm_num
  refine ⟨by norm_num, by norm_num, ?_, ?_⟩ <;> rw [hval] <;> norm_num

/-- C8 amended: `CalculateETA` returns `0` whenever `speed ≤ 0`; when
`speed > 0` it returns `(total - downloaded) / speed` seconds even if
`downloaded > total` (so the result can be negative); the result is
non-negative whenever `downloaded ≤ total`. -/
theorem calculateETA_spec (total downloaded speed : Int) :
    (speed ≤ 0 → calculateETA total downloaded speed = 0) ∧
    (0 < speed → calculateETA total downloaded speed =
      ((total : ℚ) - (downloaded : ℚ)) / (speed : ℚ)) ∧
    (0 < speed → downloaded ≤ total → 0 ≤ calculateETA total downloaded speed) := by
  unfold calculateETA
  refine ⟨fun h => if_pos h, fun h => if_neg (by omega), fun h hd => ?_⟩
  rw [if_neg (by omega)]
  apply div_nonneg
  · rw [sub_nonneg]
    exact_mod_cast hd
  · exact_mod_cast le_of_lt h

/-! ## C3: range probe and single-stream fallback
(manager.go `Download` lines 312-343, `isRangeNotSupportedError` lines
1007-1016, and `Client.DownloadRange` in the http client). -/

/-- `isRangeNotSupportedError` (manager.go lines 1007-1016) applied to the
message of a non-nil error (the `err == nil` guard is represented by the
callers matching on `Except.error` first). -/
def isRangeNotSupportedError (errStr : String) : Bool :=
  strContainsSub errStr "服务器不支持范围请求" ||
  strContainsSub errStr "range not supported" ||
  strContainsSub errStr "不支持范围请求"

/-- The status check performed by `Client.DownloadRange`: any response status
other than 206 Partial Content produces the range-not-supported error
message. -/
def downloadRangeStatusCheck (statusCode : Int) : Except String Unit :=
  if statusCode ≠ 206 then
    .error ("服务器不支持范围请求，状态码: " ++ toString statusCode)
  else .ok ()

/-- Possible outcomes of the chunked branch of `ChunkDownloader.Download`. -/
inductive DownloadOutcome where
  | chunkedDone
  | fellBackToSingle
  | failed (msg : String)
  deriving Repr, DecidableEq

/-- The error handling of the chunked attempt inside `Download` (manager.go
lines 330-342): a RangeNotSupported failure falls back to the single-stream
path, any other failure propagates, success is success. -/
def runChunkedAttempt (chunked : Except String Unit) : DownloadOutcome :=
  match chunked with
  | .ok _ => .chunkedDone
  | .error e =>
    if isRangeNotSupportedError e then .fellBackToSingle else .failed e

/-- The decision structure of `Download` when `shouldUseChunks` holds
(manager.go lines 312-343): probe with a 0-0 ranged GET; a RangeNotSupported
probe failure falls back to single-stream immediately; any other probe
outcome proceeds with the chunked attempt. -/
def downloadChunkedDecision (probe chunked : Except String Unit) :
    DownloadOutcome :=
  match probe with
  | .error msg =>
    if isRangeNotSupportedError msg then .fellBackToSingle
    else runChunkedAttempt chunked
  | .ok _ => runChunkedAttempt chunked

theorem strContainsSub_of_isPrefix (pre post : String) :
    strContainsSub (pre ++ post) pre = true := by
  rw [strContainsSub_iff, String.data_append]
  exact (List.prefix_append pre.data post.data).isInfix

theorem isRangeNotSupportedError_append (pre m : String)
    (h : isRangeNotSupportedError m = true) :
    isRangeNotSupportedError (pre ++ m) = true := by
  have hsub : ∀ needle : String, strContainsSub m needle = true →
      strContainsSub (pre ++ m) needle = true := by
    intro needle hn
    rw [strContainsSub_iff] at hn ⊢
    rw [String.data_append]
    exact hn.trans (List.suffix_append pre.data m.data).isInfix
  unfold isRangeNotSupportedError at h ⊢
  rw [Bool.or_eq_true, Bool.or_eq_true] at h
  rcases h with (ha | hb) | hc
  · rw [hsub _ ha]
    simp
  · rw [hsub _ hb]
    simp
  · rw [hsub _ hc]
    simp

/-- C3: `Download` falls back to the single-stream path if and only if the
0-0 probe, or else the subsequent chunked attempt, fails with a
RangeNotSupported error; a probe error that is not RangeNotSupported still
proceeds with the chunked attempt; `DownloadRange` fails with a
RangeNotSupported error exactly when the response status is not 206; and the
RangeNotSupported property survives the error-message wrapping applied by the
chunk workers. -/
theorem download_fallback_iff_range_not_supported
    (probe chunked : Except String Unit) :
    (downloadChunkedDecision probe chunked = .fellBackToSingle ↔
      (∃ m, probe = .error m ∧ isRangeNotSupportedError m = true) ∨
      ((∀ m, probe = .error m → isRangeNotSupportedError m = false) ∧
        ∃ m, chunked = .error m ∧ isRangeNotSupportedError m = true)) ∧
    (∀ m, probe = .error m → isRangeNotSupportedError m = false →
      downloadChunkedDecision probe chunked = runChunkedAttempt chunked) ∧
    (∀ st : Int, st ≠ 206 → ∃ m, downloadRangeStatusCheck st = .error m ∧
      isRangeNotSupportedError m = true) ∧
    downloadRangeStatusCheck 206 = .ok () ∧
    (∀ pre m, isRangeNotSupportedError m = true →
      isRangeNotSupportedError (pre ++ m) = true) := by
  refine ⟨?_, ?_, ?_, ?_, fun pre m h => isRangeNotSupportedError_append pre m h⟩
  · cases probe with
    | ok u =>
      cases chunked with
      | ok v => simp [downloadChunkedDecision, runChunkedAttempt]
      | error e =>
        simp only [downloadChunkedDecision, runChunkedAttempt]
        split
        · next he => simp_all
        · next he => simp_all
    | error msg =>
      by_cases hm : isRangeNotSupportedError msg
      · simp only [downloadChunkedDecision, if_pos hm]
        constructor
        · intro _
          exact Or.inl ⟨msg, rfl, hm⟩
        · intro _
          trivial
      · simp only [downloadChunkedDecision, if_neg hm]
        cases chunked with
        | ok v =>
          simp only [runChunkedAttempt]
          constructor
          · intro h
            cases h
          · rintro (⟨m, hm1, hm2⟩ | ⟨_, m, hm1, _⟩)
            · cases hm1
              exact absurd hm2 hm
            · cases hm1
        | error e =>
          simp only [runChunkedAttempt]
          split
          · next he =>
            constructor
            · intro _
              exact Or.inr ⟨fun m h => by cases h; simpa using hm, e, rfl, he⟩
            · intro _
              rfl
          · next he =>
            constructor
            · intro h
              cases h
            · rintro (⟨m, hm1, hm2⟩ | ⟨_, m, hm1, hm2⟩)
              · cases hm1
                exact absurd hm2 hm
              · cases hm1
                exact absurd hm2 he
  · intro m hp hno
    subst hp
    simp [downloadChunkedDecision, hno]
  · intro st hst
    refine ⟨"服务器不支持范围请求，状态码: " ++ toString st, ?_, ?_⟩
    · simp [downloadRangeStatusCheck, hst]
    · unfold isRangeNotSupportedError
      have hlit : ("服务器不支持范围请求，状态码: " : String) =
          "服务器不支持范围请求" ++ "，状态码: " := rfl
      rw [hlit, String.append_assoc, strContainsSub_of_isPrefix]
      simp
  · simp [downloadRangeStatusCheck]

/-- C3 witness: a probe failing with a plain network error still proceeds to
the chunked attempt, and a 200 response to the ranged GET yields a
RangeNotSupported error. -/
theorem download_fallback_witness :
    isRangeNotSupportedError "connection timeout" = false ∧
    downloadChunkedDecision (.error "connection timeout") (.ok ()) =
      runChunkedAttempt (.ok ()) ∧
    (∃ m, downloadRangeStatusCheck 200 = .error m ∧
      isRangeNotSupportedError m = true) := by
  refine ⟨by decide, ?_, ?_⟩
  · exact (download_fallback_iff_range_not_supported
      (.error "connection timeout") (.ok ())).2.1 "connection timeout" rfl
      (by decide)
  · exact (download_fallback_iff_range_not_supported
      (.ok ()) (.ok ())).2.2.1 200 (by decide)

/-! ## C5: resume-state persistence (manager.go `saveDownloadState`
lines 911-943, `createStateFileName` lines 906-908) -/

/-- A filesystem operation performed by the state codec. -/
inductive FSOp where
  | write (path data : String)
  | rename (src dst : String)
  | remove (path : String)
  deriving Repr, DecidableEq

/-- `createStateFileName` (manager.go lines 906-908). -/
def createStateFileName (outputPath : String) : String :=
  outputPath ++ ".wget2go.state"

/-- The JSON encoding of one `ChunkState` record, exactly as produced by
`json.MarshalIndent(states, "", "  ")` for an element of the slice. -/
def chunkStateJson (c : Chunk) : String :=
  "  \x7b\n    \"index\": " ++ toString c.index ++
  ",\n    \"start\": " ++ toString c.start ++
  ",\n    \"end\": " ++ toString c.stop ++
  ",\n    \"size\": " ++ toString c.size ++
  ",\n    \"completed\": " ++ toString c.completed ++
  ",\n    \"status\": " ++ toString c.status.toInt ++ "\n  \x7d"

/-- `json.MarshalIndent(states, "", "  ")` for the whole slice of `ChunkState`
records (`states` stays `nil` for an empty chunk list, which Go encodes as
`null`). -/
def chunkStatesJson (chunks : List Chunk) : String :=
  if chunks.isEmpty then "null"
  else "[\n" ++ String.intercalate ",\n" (chunks.map chunkStateJson) ++ "\n]"

/-- `saveDownloadState` (manager.go lines 911-943) as the trace of filesystem
operations it performs: it builds the `ChunkState` slice, JSON-encodes it
(`json.MarshalIndent` cannot fail on these records) and issues a single
direct `os.WriteFile` to `<outputPath>.wget2go.state`. -/
def saveDownloadState (outputPath : String) (chunks : List Chunk) :
    List FSOp :=
  [FSOp.write (createStateFileName outputPath) (chunkStatesJson chunks)]

/-- C5 counterexample: saving the state for output path `"out"` and one
completed chunk performs exactly one direct write to
`"out.wget2go.state"` — there is no write to a temporary file and no rename,
so the write is not atomic in the claimed sense. -/
theorem saveDownloadState_not_atomic :
    saveDownloadState "out"
        [{ index := 0, start := 0, stop := 9, size := 10, completed := 10,
           status := TaskStatus.TaskCompleted }] =
      [FSOp.write "out.wget2go.state"
        "[\n  \x7b\n    \"index\": 0,\n    \"start\": 0,\n    \"end\": 9,\n    \"size\": 10,\n    \"completed\": 10,\n    \"status\": 2\n  \x7d\n]"] ∧
    ∀ op ∈ saveDownloadState "out"
        [{ index := 0, start := 0, stop := 9, size := 10, completed := 10,
           status := TaskStatus.TaskCompleted }],
      (∀ src dst, op ≠ FSOp.rename src dst) ∧
      ∀ p d, op = FSOp.write p d → p = "out.wget2go.state" := by
  constructor
  · rfl
  · intro op hop
    simp only [saveDownloadState, List.mem_singleton] at hop
    subst hop
    constructor
    · intro src dst h
      cases h
    · intro p d h
      cases h
      rfl

/-- C5 amended: `saveDownloadState` serialises the
`{index,start,end,size,completed,status}` records to JSON and writes the
result directly to `<outputPath>.wget2go.state` in a single `WriteFile` call;
no temporary file is written and no rename is performed, so the write is not
atomic. -/
theorem saveDownloadState_direct_write (outputPath : String)
    (chunks : List Chunk) :
    saveDownloadState outputPath chunks =
      [FSOp.write (outputPath ++ ".wget2go.state") (chunkStatesJson chunks)] ∧
    (∀ op ∈ saveDownloadState outputPath chunks,
      ∀ src dst, op ≠ FSOp.rename src dst) := by
  refine ⟨rfl, ?_⟩
  intro op hop src dst
  simp only [saveDownloadState, List.mem_singleton] at hop
  subst hop
  intro h
  cases h

/-! ## C2: post-download verification and rename
(manager.go `downloadWithChunks` lines 505-533).

The filesystem is modelled as an association list from path to file size;
`fsLookup` plays the role of `os.Stat` (returning the size when the file
exists), `fsRemove` of `os.Remove`, `fsSet` of creating/overwriting a file. -/

/-- The filesystem: a finite map from path to file size. -/
abbrev FS := List (String × Nat)

def fsLookup : FS → String → Option Nat
  | [], _ => none
  | e :: t, p => if e.1 = p then some e.2 else fsLookup t p

def fsRemove : FS → String → FS
  | [], _ => []
  | e :: t, p => if e.1 = p then fsRemove t p else e :: fsRemove t p

def fsSet (fs : FS) (p : String) (v : Nat) : FS :=
  (p, v) :: fsRemove fs p

theorem fsLookup_fsRemove_self (fs : FS) (p : String) :
    fsLookup (fsRemove fs p) p = none := by
  induction fs with
  | nil => rfl
  | cons e t ih =>
    by_cases h : e.1 = p <;> simp [fsRemove, fsLookup, h, ih]

theorem fsLookup_fsRemove_ne (fs : FS) (q p : String) (h : q ≠ p) :
    fsLookup (fsRemove fs q) p = fsLookup fs p := by
  have h' : p ≠ q := Ne.symm h
  induction fs with
  | nil => rfl
  | cons e t ih =>
    by_cases h1 : e.1 = q
    · have h2 : ¬ e.1 = p := by rw [h1]; exact h
      simp [fsRemove, fsLookup, h1, h2, ih, h, h']
    · by_cases h2 : e.1 = p <;> simp [fsRemove, fsLookup, h1, h2, ih, h, h']

theorem fsLookup_fsSet_self (fs : FS) (p : String) (v : Nat) :
    fsLookup (fsSet fs p v) p = some v := by
  simp [fsSet, fsLookup]

theorem fsLookup_fsSet_ne (fs : FS) (p q : String) (v : Nat) (h : p ≠ q) :
    fsLookup (fsSet fs p v) q = fsLookup fs q := by
  simp only [fsSet, fsLookup, if_neg h]
  exact fsLookup_fsRemove_ne fs p q h

theorem string_ne_append {s t : String} (h : 0 < t.length) : s ≠ s ++ t := by
  intro he
  have hl := congrArg String.length he
  rw [String.length_append] at hl
  omega

theorem string_append_ne {s t u : String} (h : t.length ≠ u.length) :
    s ++ t ≠ s ++ u := by
  intro he
  have hl := congrArg String.length he
  rw [String.length_append, String.length_append] at hl
  omega

/-- `deleteStateFile` (manager.go lines 998-1004): remove the state file when
it exists (removing an absent key is a no-op on the map model). -/
def deleteStateFile (fs : FS) (outputPath : String) : FS :=
  fsRemove fs (createStateFileName outputPath)

/-- The completion phase of `downloadWithChunks` (manager.go lines 505-533),
run after `downloadChunks` returned without error: stat the temp file,
require its size to equal the Content-Length from the initial HEAD, then
delete the state file and rename `<outputPath>.tmp` onto `outputPath`. -/
def finalizeChunkedDownload (fs : FS) (outputPath : String)
    (contentLength : Nat) : Except String FS :=
  match fsLookup fs (outputPath ++ ".tmp") with
  | none => .error "获取文件信息失败"
  | some actualSize =>
    if actualSize ≠ contentLength then
      .error "文件大小不匹配"
    else
      match fsLookup (deleteStateFile fs outputPath) (outputPath ++ ".tmp") with
      | none => .error "重命名文件失败"
      | some v =>
        .ok (fsSet
          (fsRemove (deleteStateFile fs outputPath) (outputPath ++ ".tmp"))
          outputPath v)

/-- The tail of `downloadWithChunks`: a chunk-task error propagates
(manager.go lines 506-509), otherwise the completion phase runs. -/
def downloadWithChunksCompletion (chunkResult : Except String Unit) (fs : FS)
    (outputPath : String) (contentLength : Nat) : Except String FS :=
  match chunkResult with
  | .error e => .error e
  | .ok _ => finalizeChunkedDownload fs outputPath contentLength

/-- C2: with the temp file present with size `sz`, a chunk-task error
propagates; if the tasks finished without error the operation fails with the
size-mismatch error unless `sz` equals the Content-Length from the HEAD
request; exactly when that check passes, the state file
`<outputPath>.wget2go.state` is deleted and `<outputPath>.tmp` is renamed
onto the output path, so on success neither the temp file nor the state file
remains and the output file has the advertised size. -/
theorem chunked_completion_verified (fs : FS) (outputPath : String)
    (contentLength sz : Nat)
    (htmp : fsLookup fs (outputPath ++ ".tmp") = some sz) :
    (∀ e, downloadWithChunksCompletion (.error e) fs outputPath contentLength =
      .error e) ∧
    (sz ≠ contentLength →
      downloadWithChunksCompletion (.ok ()) fs outputPath contentLength =
        .error "文件大小不匹配") ∧
    (sz = contentLength → ∃ result : FS,
      downloadWithChunksCompletion (.ok ()) fs outputPath contentLength =
        .ok result ∧
      fsLookup result (outputPath ++ ".tmp") = none ∧
      fsLookup result (createStateFileName outputPath) = none ∧
      fsLookup result outputPath = some contentLength) := by
  have hlenState : ("" ++ ".wget2go.state" : String).length = 14 := by decide
  have hlenTmp : ("" ++ ".tmp" : String).length = 4 := by decide
  have hlS : (".wget2go.state" : String).length = 14 := by decide
  have hlT : (".tmp" : String).length = 4 := by decide
  have hStateTmp : createStateFileName outputPath ≠ outputPath ++ ".tmp" :=
    string_append_ne (by omega)
  have hOutTmp : outputPath ≠ outputPath ++ ".tmp" :=
    string_ne_append (by omega)
  have hOutState : outputPath ≠ createStateFileName outputPath :=
    string_ne_append (by omega)
  refine ⟨fun e => rfl, ?_, ?_⟩
  · intro hne
    show finalizeChunkedDownload fs outputPath contentLength = _
    unfold finalizeChunkedDownload
    rw [htmp]
    simp only [if_pos hne]
  · intro heq
    subst heq
    show ∃ result, finalizeChunkedDownload fs outputPath sz = .ok result ∧ _
    unfold finalizeChunkedDownload
    rw [htmp]
    simp only [ne_eq, not_true_eq_false, if_neg, ite_false]
    have h1 : fsLookup (deleteStateFile fs outputPath) (outputPath ++ ".tmp") =
        some sz := by
      unfold deleteStateFile
      rw [fsLookup_fsRemove_ne _ _ _ hStateTmp, htmp]
    rw [h1]
    refine ⟨_, rfl, ?_, ?_, ?_⟩
    · rw [fsLookup_fsSet_ne _ _ _ _ hOutTmp]
      exact fsLookup_fsRemove_self _ _
    · rw [fsLookup_fsSet_ne _ _ _ _ hOutState,
        fsLookup_fsRemove_ne _ _ _ (Ne.symm hStateTmp)]
      exact fsLookup_fsRemove_self _ _
    · exact fsLookup_fsSet_self _ _ _

/-- C2 witness: the completion theorem applied to a concrete filesystem
holding `o.tmp` (5 bytes) and a stale state file, with Content-Length 5. -/
theorem chunked_completion_witness :
    fsLookup [("o.tmp", 5), ("o.wget2go.state", 1)] ("o" ++ ".tmp") =
      some 5 ∧
    ∃ result : FS,
      downloadWithChunksCompletion (.ok ())
        [("o.tmp", 5), ("o.wget2go.state", 1)] "o" 5 = .ok result ∧
      fsLookup result ("o" ++ ".tmp") = none ∧
      fsLookup result (createStateFileName "o") = none ∧
      fsLookup result "o" = some 5 :=
  ⟨by decide,
    (chunked_completion_verified [("o.tmp", 5), ("o.wget2go.state", 1)] "o" 5 5
      (by decide)).2.2 rfl⟩

/-! ## Robots policy (converter.go, second part: package robots)

`Parser.Parse` (lines 381-457), `Parser.IsAllowed` / `Parser.IsPathAllowed`
(lines 469-499 and 607-628), `Parser.getRule` (lines 502-517) and
`Parser.matchPath` (lines 520-531).  `strings.TrimSpace` and
`strings.ToLower` are modelled on their ASCII fragment (`String.trim`,
`String.toLower`), which covers every string the claims use. -/

/-- `RobotsRules` from types.go (sitemaps live on the parser, not the rule). -/
structure RobotsRules where
  userAgent : String
  disallow : List String
  allow : List String
  crawlDelay : Int
  deriving Repr, DecidableEq

/-- The state of a robots `Parser`.  Go's `p.defaults` is a pointer into
`p.rules`; it is modelled as the index of the rule it aliases, so that
directive lines mutating the current (last) rule are reflected in the
default rule exactly when the two alias.  `inRecord` is the flag of the same
name; the Go `currentRule` pointer always aliases the last element of
`rules` once `inRecord` is set. -/
structure RobotsParserState where
  rules : List RobotsRules
  defaultsIdx : Option Nat
  sitemaps : List String
  inRecord : Bool
  deriving Repr, DecidableEq

/-- `NewParser` (lines 373-378). -/
def initRobotsParser : RobotsParserState :=
  { rules := [], defaultsIdx := none, sitemaps := [], inRecord := false }

/-- Apply a mutation to the last rule (Go mutates through `currentRule`,
which aliases the last appended rule). -/
def modifyLast (f : RobotsRules → RobotsRules) :
    List RobotsRules → List RobotsRules
  | [] => []
  | [r] => [f r]
  | r :: rest => r :: modifyLast f rest

/-- `strings.SplitN(line, ":", 2)`: split at the first colon; `none` when the
line has no colon (the source then skips the line). -/
def splitFirstColon : List Char → Option (List Char × List Char)
  | [] => none
  | c :: cs =>
    if c = ':' then some ([], cs)
    else
      match splitFirstColon cs with
      | none => none
      | some (a, b) => some (c :: a, b)

/-- The value scanned by `fmt.Sscanf(value, "%d", &delay)`: an optional sign
followed by decimal digits; when no integer can be scanned the variable
keeps its zero value. -/
def digitsVal (cs : List Char) : Option Nat :=
  let ds := cs.takeWhile Char.isDigit
  if ds.isEmpty then none
  else some (ds.foldl (fun acc c => acc * 10 + (c.toNat - 48)) 0)

def sscanfInt (s : String) : Int :=
  match s.data with
  | '-' :: rest =>
    match digitsVal rest with
    | none => 0
    | some v => -(v : Int)
  | '+' :: rest =>
    match digitsVal rest with
    | none => 0
    | some v => (v : Int)
  | cs =>
    match digitsVal cs with
    | none => 0
    | some v => (v : Int)

/-- The ASCII white-space class of `unicode.IsSpace` (none of the strings
handled by the claims contain non-ASCII white space). -/
def isGoSpace (c : Char) : Bool :=
  c = ' ' || c = '\t' || c = '\n' || c = '\r' || c = '\x0b' || c = '\x0c'

/-- `strings.TrimSpace` on its ASCII fragment. -/
def goTrim (s : String) : String :=
  String.mk (((s.data.dropWhile isGoSpace).reverse.dropWhile isGoSpace).reverse)

/-- `strings.ToLower` on its ASCII fragment. -/
def goToLower (s : String) : String :=
  String.mk (s.data.map (fun c =>
    if 'A' ≤ c ∧ c ≤ 'Z' then Char.ofNat (c.toNat + 32) else c))

def splitLinesAux : List Char → List Char → List (List Char)
  | [], acc => [acc.reverse]
  | c :: rest, acc =>
    if c = '\n' then acc.reverse :: splitLinesAux rest []
    else splitLinesAux rest (c :: acc)

/-- The lines produced by `bufio.Scanner` with `ScanLines`: split on `\n`,
dropping one trailing `\r` per line. -/
def goLines (s : String) : List String :=
  (splitLinesAux s.data []).map (fun l =>
    String.mk (if l.getLast? = some '\r' then l.dropLast else l))

/-- One iteration of the scanner loop in `Parser.Parse` (lines 387-454). -/
def parseRobotsLine (st : RobotsParserState) (raw : String) :
    RobotsParserState :=
  let line := goTrim raw
  if line = "" then st
  else if ("#".data).isPrefixOf line.data then st
  else
    match splitFirstColon line.data with
    | none => st
    | some (k, v) =>
      let key := goToLower (goTrim (String.mk k))
      let value := goTrim (String.mk v)
      if key = "user-agent" then
        let value := goToLower value
        let newRule : RobotsRules :=
          { userAgent := value, disallow := [], allow := [], crawlDelay := 0 }
        { rules := st.rules ++ [newRule],
          defaultsIdx :=
            if value = "*" then some st.rules.length else st.defaultsIdx,
          sitemaps := st.sitemaps,
          inRecord := true }
      else if key = "disallow" then
        if st.inRecord then
          { st with rules := modifyLast (fun r =>
              if value = "" then { r with disallow := [] }
              else { r with disallow := r.disallow ++ [value] }) st.rules }
        else st
      else if key = "allow" then
        if st.inRecord then
          { st with rules := modifyLast (fun r =>
              { r with allow := r.allow ++ [value] }) st.rules }
        else st
      else if key = "crawl-delay" then
        if st.inRecord then
          { st with rules := modifyLast (fun r =>
              { r with crawlDelay := sscanfInt value }) st.rules }
        else st
      else if key = "sitemap" then
        { st with sitemaps := st.sitemaps ++ [value] }
      else st

/-- `Parser.Parse` over the whole buffer. -/
def parseRobots (data : String) : RobotsParserState :=
  (goLines data).foldl parseRobotsLine initRobotsParser

/-- `Parser.Parse` including its returned error value; the function's only
return statement is `return nil`. -/
def parseRobotsResult (data : String) : RobotsParserState × Option String :=
  (parseRobots data, none)

/-! Mini regex engine: exactly the constructs produced by `matchPath`'s
translation (literal characters, `.`, a postfix `*`, and the `$` end
anchor), matched with full-backtracking semantics, which agrees with Go's
`regexp` on whether a match exists. -/

inductive RAtom where
  | lit (c : Char)
  | dot
  deriving Repr, DecidableEq

inductive RItem where
  | atom (a : RAtom)
  | star (a : RAtom)
  | anchorEnd
  deriving Repr, DecidableEq

/-- A single regex atom applied to one character.  Go's `regexp` compiles
`.` without the `(?s)` flag, so it matches any character except `'\n'`. -/
def atomMatch : RAtom → Char → Bool
  | .lit c, x => c = x
  | .dot, x => x != '\n'

/-- Parse the translated pattern.  In patterns produced by the translation a
`*` can only follow a `.` (every source `*` was replaced by `.*`), and `$`
is never followed by `*`. -/
def parseRegex : List Char → List RItem
  | [] => []
  | '$' :: rest => .anchorEnd :: parseRegex rest
  | c :: '*' :: rest =>
    .star (if c = '.' then RAtom.dot else RAtom.lit c) :: parseRegex rest
  | c :: rest =>
    .atom (if c = '.' then RAtom.dot else RAtom.lit c) :: parseRegex rest

/-- Anchored regex matching (the source compiles `"^" + pattern + "$"`; the
start anchor corresponds to matching from position 0). -/
def reMatch : List RItem → List Char → Bool
  | [], [] => true
  | [], _ :: _ => false
  | .anchorEnd :: rest, s => s.isEmpty && reMatch rest []
  | .atom _ :: _, [] => false
  | .atom a :: rest, x :: xs => atomMatch a x && reMatch rest xs
  | .star a :: rest, s =>
    reMatch rest s ||
      (match s with
       | [] => false
       | x :: xs => atomMatch a x && reMatch (.star a :: rest) xs)
  termination_by items s => (items.length, s.length)

/-- `strings.ReplaceAll(pattern, "*", ".*")` (the pattern is the single
character `*`). -/
def translateStar : List Char → List Char
  | [] => []
  | c :: rest =>
    if c = '*' then '.' :: '*' :: translateStar rest
    else c :: translateStar rest

/-- `Parser.matchPath` (lines 520-531): translate `*` to `.*`, append `.*`
unless the pattern ends in `$`, anchor on both sides and match. -/
def matchPath (path pattern : String) : Bool :=
  let p1 := translateStar pattern.data
  let p2 := if p1.getLast? = some '$' then p1 else p1 ++ ['.', '*']
  reMatch (parseRegex (p2 ++ ['$'])) path.data

/-- The rule-selection loop of `Parser.getRule` (lines 505-513): skip `*`
rules, return the first rule whose stored user-agent occurs in the
(lowercased) request user-agent. -/
def getRuleFrom : List RobotsRules → String → Option RobotsRules
  | [], _ => none
  | r :: rest, ua =>
    if r.userAgent = "*" then getRuleFrom rest ua
    else if strContainsSub ua r.userAgent then some r
    else getRuleFrom rest ua

/-- `Parser.getRule` (lines 502-517). -/
def getRule (st : RobotsParserState) (userAgent : String) :
    Option RobotsRules :=
  match getRuleFrom st.rules (goToLower userAgent) with
  | some r => some r
  | none => st.defaultsIdx.bind (fun i => st.rules[i]?)

/-- `Parser.IsPathAllowed` (lines 607-628); `Parser.IsAllowed` is the same
check applied to `url.Parse(urlStr).Path` — the URL-to-path extraction is
taken as given here. -/
def isPathAllowed (st : RobotsParserState) (path userAgent : String) : Bool :=
  match getRule st userAgent with
  | none => true
  | some rule =>
    if rule.allow.any (fun a => matchPath path a) then true
    else if rule.disallow.any (fun d => matchPath path d) then false
    else true

/-- The Disallow-scan loop of `Manager.IsAllowedByRobots`
(queue/manager.go lines 144-150): return `false` at the first rule with a
`Disallow` entry that is a literal prefix of the path
(`strings.HasPrefix`), `true` otherwise.  The request user agent is never
consulted, `Allow` rules are never consulted, and every rule is scanned
regardless of its `UserAgent`. -/
def isAllowedByRobotsRules : List RobotsRules → String → Bool
  | [], _ => true
  | rule :: rest, path =>
    if rule.disallow.any (fun d => (d.data).isPrefixOf path.data) then false
    else isAllowedByRobotsRules rest path

/-- `Manager.IsAllowedByRobots` (queue/manager.go lines 126-153): the
allowedness query the crawler actually invokes (from `processJob`).  Host
resolution, the per-host parser lookup and `url.Parse` are elided, each
failure returning `true`; `none` is the missing-parser case (lines
133-135).  The rule list is the `types.RobotsParser.Rules` slice the
crawler stores for the host — the rules produced by the robots `Parse`. -/
def isAllowedByRobots (parser : Option (List RobotsRules))
    (path userAgent : String) : Bool :=
  match parser with
  | none => true
  | some rules => isAllowedByRobotsRules rules path

theorem reMatch_atom_cons (a : RAtom) (rest : List RItem) (x : Char)
    (xs : List Char) :
    reMatch (.atom a :: rest) (x :: xs) = (atomMatch a x && reMatch rest xs) := by
  simp [reMatch]

theorem reMatch_starDot_anchor (s : List Char) (h : '\n' ∉ s) :
    reMatch [RItem.star RAtom.dot, RItem.anchorEnd] s = true := by
  induction s with
  | nil => simp [reMatch]
  | cons x xs ih =>
    have hx : ¬ x = '\n' := by
      intro hx0
      exact h (by rw [← hx0]; exact List.mem_cons_self x xs)
    have hxs : '\n' ∉ xs := fun hm => h (List.mem_cons_of_mem _ hm)
    rw [reMatch]
    simp [atomMatch, hx, ih hxs]

theorem reMatch_starDot_anchor_false (s : List Char) (h : '\n' ∈ s) :
    reMatch [RItem.star RAtom.dot, RItem.anchorEnd] s = false := by
  induction s with
  | nil => exact absurd h (List.not_mem_nil _)
  | cons x xs ih =>
    rw [reMatch]
    by_cases hx : x = '\n'
    · simp [reMatch, atomMatch, hx]
    · have hxs : '\n' ∈ xs := by
        rcases List.mem_cons.mp h with h1 | h1
        · exact absurd h1.symm hx
        · exact h1
      simp [reMatch, atomMatch, hx, ih hxs]

/-- A `Disallow: /x` pattern (translated to `^/x.*$`) matches every
newline-free path that extends `/x` (`.` does not match `'\n'`). -/
theorem matchPath_slash_x (path : String)
    (h : ("/x/".data).isPrefixOf path.data = true)
    (hnl : '\n' ∉ path.data) :
    matchPath path "/x" = true := by
  have e : matchPath path "/x" =
      reMatch [RItem.atom (RAtom.lit '/'), RItem.atom (RAtom.lit 'x'),
               RItem.star RAtom.dot, RItem.anchorEnd] path.data := rfl
  rw [e]
  rw [List.isPrefixOf_iff_prefix] at h
  obtain ⟨t, ht⟩ := h
  rw [← ht]
  rw [← ht] at hnl
  have hnt : '\n' ∉ ('/' :: t : List Char) := by
    intro hm
    apply hnl
    show '\n' ∈ ('/' :: 'x' :: '/' :: t : List Char)
    rcases List.mem_cons.mp hm with h1 | h1
    · exact absurd h1 (by decide)
    · exact List.mem_cons_of_mem _
        (List.mem_cons_of_mem _ (List.mem_cons_of_mem _ h1))
  show reMatch _ ('/' :: 'x' :: '/' :: t) = true
  rw [reMatch_atom_cons, reMatch_atom_cons, reMatch_starDot_anchor _ hnt]
  decide

theorem getRuleFrom_eq_find (rules : List RobotsRules) (ua : String) :
    getRuleFrom rules ua =
      (rules.filter (fun r => !(r.userAgent == "*"))).find?
        (fun r => strContainsSub ua r.userAgent) := by
  induction rules with
  | nil => rfl
  | cons r rest ih =>
    by_cases h : r.userAgent = "*"
    · simp [getRuleFrom, h, List.filter_cons, ih]
    · by_cases h2 : strContainsSub ua r.userAgent = true
      · simp [getRuleFrom, h, h2, List.filter_cons, List.find?_cons]
      · simp only [Bool.not_eq_true] at h2
        simp [getRuleFrom, h, h2, List.filter_cons, List.find?_cons, ih]

theorem isAllowedByRobotsRules_eq_false_iff (rules : List RobotsRules)
    (path : String) :
    isAllowedByRobotsRules rules path = false ↔
      ∃ rule ∈ rules, ∃ d ∈ rule.disallow,
        (d.data).isPrefixOf path.data = true := by
  induction rules with
  | nil => simp [isAllowedByRobotsRules]
  | cons rule rest ih =>
    unfold isAllowedByRobotsRules
    by_cases h : rule.disallow.any (fun d => (d.data).isPrefixOf path.data) = true
    · rw [if_pos h]
      rw [List.any_eq_true] at h
      obtain ⟨d, hd, hp⟩ := h
      constructor
      · intro _
        exact ⟨rule, List.mem_cons_self _ _, d, hd, hp⟩
      · intro _
        rfl
    · rw [if_neg h, ih]
      constructor
      · rintro ⟨r, hr, d, hd, hp⟩
        exact ⟨r, List.mem_cons_of_mem _ hr, d, hd, hp⟩
      · rintro ⟨r, hr, d, hd, hp⟩
        rw [List.mem_cons] at hr
        rcases hr with rfl | hr
        · exact absurd (List.any_eq_true.mpr ⟨d, hd, hp⟩) h
        · exact ⟨r, hr, d, hd, hp⟩

/-- C6 counterexample: the allowedness query the crawler invokes,
`Manager.IsAllowedByRobots`, contradicts the claimed algorithm on parsed
rule sets: an `Allow: /x/ok` rule that matches the path first does not
grant access (the live query never reads `Allow` rules); a rule for
user-agent `googlebot` is applied to the request UA `otherbot` (no
UA-substring selection, no `*` fallback), where the claimed algorithm —
implemented only by the dormant `Parser.IsPathAllowed` — allows; and even
that dormant implementation does not deny every `/x/`-prefixed path,
because its translated `.` does not match a newline. -/
theorem robots_live_query_contradicts_claim :
    isAllowedByRobots
        (some (parseRobots "User-agent: *\nDisallow: /x\nAllow: /x/ok").rules)
        "/x/ok/a" "anybot" = false ∧
    isAllowedByRobots
        (some (parseRobots "User-agent: googlebot\nDisallow: /x").rules)
        "/x/a" "otherbot" = false ∧
    isPathAllowed (parseRobots "User-agent: googlebot\nDisallow: /x")
        "/x/a" "otherbot" = true ∧
    isPathAllowed (parseRobots "User-agent: *\nDisallow: /x")
        "/x/a\nb" "anybot" = true := by
  refine ⟨rfl, rfl, rfl, ?_⟩
  have hm : matchPath "/x/a\nb" "/x" = false := by
    have e : matchPath "/x/a\nb" "/x" =
        reMatch [RItem.atom (RAtom.lit '/'), RItem.atom (RAtom.lit 'x'),
                 RItem.star RAtom.dot, RItem.anchorEnd]
          ('/' :: 'x' :: '/' :: 'a' :: '\n' :: 'b' :: []) := rfl
    rw [e, reMatch_atom_cons, reMatch_atom_cons,
        reMatch_starDot_anchor_false _ (by decide)]
    decide
  have hstate : parseRobots "User-agent: *\nDisallow: /x" =
      { rules := [{ userAgent := "*", disallow := ["/x"], allow := [],
                    crawlDelay := 0 }],
        defaultsIdx := some 0, sitemaps := [], inRecord := true } := by
    rfl
  rw [hstate]
  simp [isPathAllowed, getRule, getRuleFrom, hm]

/-- C6 corrected: the allowedness query the crawler invokes,
`Manager.IsAllowedByRobots`, ignores the user agent and the `Allow` rules
entirely: its answer is the same for every user agent; it denies exactly
when some rule carries a `Disallow` entry that is a literal prefix of the
path; a missing parser allows; under the parsed rule set `User-agent: *` /
`Disallow: /x` it denies every `/x/`-prefixed path; and it allows
everything when every rule's `Disallow` list is empty.  The claimed
algorithm — first rule whose stored (lowercased) user-agent occurs in the
lowercased request UA, `*`-default fallback, allow-first then disallow
evaluation, allow when no rule applies — is implemented only by the robots
package's `Parser.IsAllowed`/`IsPathAllowed`, which no code in the
repository calls; and there even `Disallow: /x` denies a `/x/`-prefixed
path only when the path contains no newline (the translated `.` does not
match `'\n'`), while an empty `Disallow` leaves all paths allowed. -/
theorem robots_allowedness_corrected :
    (∀ parser path ua ua',
      isAllowedByRobots parser path ua = isAllowedByRobots parser path ua') ∧
    (∀ rules path ua, isAllowedByRobots (some rules) path ua = false ↔
      ∃ rule ∈ rules, ∃ d ∈ rule.disallow,
        (d.data).isPrefixOf path.data = true) ∧
    (∀ path ua, isAllowedByRobots none path ua = true) ∧
    (∀ path ua, ("/x/".data).isPrefixOf path.data = true →
      isAllowedByRobots
        (some (parseRobots "User-agent: *\nDisallow: /x").rules)
        path ua = false) ∧
    (∀ rules path ua, (∀ rule ∈ rules, rule.disallow = []) →
      isAllowedByRobots (some rules) path ua = true) ∧
    (∀ st ua path, getRule st ua = none → isPathAllowed st path ua = true) ∧
    (∀ st ua ua', goToLower ua = goToLower ua' → getRule st ua = getRule st ua') ∧
    (∀ st ua r,
      (st.rules.filter (fun r0 => !(r0.userAgent == "*"))).find?
          (fun r0 => strContainsSub (goToLower ua) r0.userAgent) = some r →
      getRule st ua = some r) ∧
    (∀ st ua,
      (st.rules.filter (fun r0 => !(r0.userAgent == "*"))).find?
          (fun r0 => strContainsSub (goToLower ua) r0.userAgent) = none →
      getRule st ua = st.defaultsIdx.bind (fun i => st.rules[i]?)) ∧
    (∀ st ua path r, getRule st ua = some r →
      ((∃ a ∈ r.allow, matchPath path a = true) →
        isPathAllowed st path ua = true) ∧
      ((∀ a ∈ r.allow, matchPath path a = false) →
        (∃ d ∈ r.disallow, matchPath path d = true) →
        isPathAllowed st path ua = false) ∧
      ((∀ a ∈ r.allow, matchPath path a = false) →
        (∀ d ∈ r.disallow, matchPath path d = false) →
        isPathAllowed st path ua = true)) ∧
    (∀ path ua, ("/x/".data).isPrefixOf path.data = true →
      '\n' ∉ path.data →
      isPathAllowed (parseRobots "User-agent: *\nDisallow: /x") path ua =
        false) ∧
    (∀ path ua,
      isPathAllowed (parseRobots "User-agent: *\nDisallow:") path ua = true) := by
  refine ⟨?_, ?_, ?_, ?_, ?_, ?_, ?_, ?_, ?_, ?_, ?_, ?_⟩
  · intro parser path ua ua'
    cases parser <;> rfl
  · intro rules path ua
    exact isAllowedByRobotsRules_eq_false_iff rules path
  · intro path ua
    rfl
  · intro path ua h
    rw [List.isPrefixOf_iff_prefix] at h
    obtain ⟨t, ht⟩ := h
    have hx : ("/x".data).isPrefixOf path.data = true := by
      rw [← ht]
      rfl
    have hst : (parseRobots "User-agent: *\nDisallow: /x").rules =
        [{ userAgent := "*", disallow := ["/x"], allow := [],
           crawlDelay := 0 }] := rfl
    show isAllowedByRobotsRules
      (parseRobots "User-agent: *\nDisallow: /x").rules path = false
    rw [hst]
    unfold isAllowedByRobotsRules
    rw [if_pos (by simp [hx])]
  · intro rules path ua
    induction rules with
    | nil =>
      intro _
      rfl
    | cons rule rest ih =>
      intro h
      show isAllowedByRobotsRules (rule :: rest) path = true
      unfold isAllowedByRobotsRules
      rw [h rule (List.mem_cons_self _ _)]
      rw [if_neg (by simp)]
      exact ih (fun r hr => h r (List.mem_cons_of_mem _ hr))
  · intro st ua path h
    unfold isPathAllowed
    rw [h]
  · intro st ua ua' h
    unfold getRule
    rw [h]
  · intro st ua r h
    unfold getRule
    rw [getRuleFrom_eq_find, h]
  · intro st ua h
    unfold getRule
    rw [getRuleFrom_eq_find, h]
  · intro st ua path r hr
    refine ⟨?_, ?_, ?_⟩
    · intro hall
      unfold isPathAllowed
      rw [hr]
      have h1 : r.allow.any (fun a => matchPath path a) = true := by
        rw [List.any_eq_true]
        obtain ⟨a, ha, hma⟩ := hall
        exact ⟨a, ha, hma⟩
      simp [h1]
    · intro hall hdis
      unfold isPathAllowed
      rw [hr]
      have h1 : r.allow.any (fun a => matchPath path a) = false := by
        rw [List.any_eq_false]
        intro a ha
        rw [hall a ha]
        exact Bool.false_ne_true
      have h2 : r.disallow.any (fun d => matchPath path d) = true := by
        rw [List.any_eq_true]
        obtain ⟨d, hd, hmd⟩ := hdis
        exact ⟨d, hd, hmd⟩
      simp [h1, h2]
    · intro hall hdis
      unfold isPathAllowed
      rw [hr]
      have h1 : r.allow.any (fun a => matchPath path a) = false := by
        rw [List.any_eq_false]
        intro a ha
        rw [hall a ha]
        exact Bool.false_ne_true
      have h2 : r.disallow.any (fun d => matchPath path d) = false := by
        rw [List.any_eq_false]
        intro d hd
        rw [hdis d hd]
        exact Bool.false_ne_true
      simp [h1, h2]
  · intro path ua h hnl
    have hm := matchPath_slash_x path h hnl
    have hstate : parseRobots "User-agent: *\nDisallow: /x" =
        { rules := [{ userAgent := "*", disallow := ["/x"], allow := [],
                      crawlDelay := 0 }],
          defaultsIdx := some 0, sitemaps := [], inRecord := true } := by
      rfl
    rw [hstate]
    simp [isPathAllowed, getRule, getRuleFrom, hm]
  · intro path ua
    have hstate : parseRobots "User-agent: *\nDisallow:" =
        { rules := [{ userAgent := "*", disallow := [], allow := [],
                      crawlDelay := 0 }],
          defaultsIdx := some 0, sitemaps := [], inRecord := true } := by
      rfl
    rw [hstate]
    simp [isPathAllowed, getRule, getRuleFrom]

/-- C6 corrected witness: the theorem applied to the parsed rule set
`User-agent: *` / `Disallow: /x` at the newline-free path `/x/a.html`
(denied by both the live query and the dormant implementation), and to the
empty `Disallow` (allowed). -/
theorem robots_allowedness_corrected_witness :
    ("/x/".data).isPrefixOf ("/x/a.html".data) = true ∧
    isAllowedByRobots
      (some (parseRobots "User-agent: *\nDisallow: /x").rules)
      "/x/a.html" "anybot" = false ∧
    ('\n' ∉ "/x/a.html".data) ∧
    isPathAllowed (parseRobots "User-agent: *\nDisallow: /x") "/x/a.html"
      "anybot" = false ∧
    isPathAllowed (parseRobots "User-agent: *\nDisallow:") "/x/a.html"
      "anybot" = true :=
  ⟨by decide,
   robots_allowedness_corrected.2.2.2.1 "/x/a.html" "anybot" (by decide),
   by decide,
   robots_allowedness_corrected.2.2.2.2.2.2.2.2.2.2.1 "/x/a.html" "anybot"
     (by decide) (by decide),
   robots_allowedness_corrected.2.2.2.2.2.2.2.2.2.2.2 "/x/a.html" "anybot"⟩

/-- C10 counterexample: a `Sitemap:` directive appearing before any
`user-agent` line is not ignored — `Parse` records it in the parser's
sitemap list (the `sitemap` case has no `inRecord` guard), so the parser
state differs from the state after parsing nothing. -/
theorem parse_sitemap_before_user_agent_processed :
    (parseRobots "Sitemap: http://example.com/s.xml").sitemaps =
      ["http://example.com/s.xml"] ∧
    parseRobots "Sitemap: http://example.com/s.xml" ≠ parseRobots "" := by
  constructor
  · rfl
  · decide

/-- C10 amended: `Parse` is total — it returns `nil` for every input; at the
line level, blank lines, comment lines and lines without a colon are
ignored, and `allow` / `disallow` / `crawl-delay` directives appearing
before any `user-agent` line are ignored, while a `sitemap` directive is
global and is recorded even before any `user-agent` line; an allowedness
query is therefore well defined after parsing arbitrary bytes. -/
theorem parse_robots_total_and_line_handling (data : String)
    (st : RobotsParserState) (raw : String) :
    (parseRobotsResult data).2 = none ∧
    (goTrim raw = "" → parseRobotsLine st raw = st) ∧
    (("#".data).isPrefixOf (goTrim raw).data = true →
      parseRobotsLine st raw = st) ∧
    (splitFirstColon (goTrim raw).data = none → parseRobotsLine st raw = st) ∧
    (st.inRecord = false → ∀ k v,
      splitFirstColon (goTrim raw).data = some (k, v) →
      goToLower (goTrim (String.mk k)) ∈
        (["disallow", "allow", "crawl-delay"] : List String) →
      parseRobotsLine st raw = st) ∧
    (∀ k v, splitFirstColon (goTrim raw).data = some (k, v) →
      goTrim raw ≠ "" →
      ("#".data).isPrefixOf (goTrim raw).data = false →
      goToLower (goTrim (String.mk k)) = "sitemap" →
      parseRobotsLine st raw =
        { st with sitemaps := st.sitemaps ++ [goTrim (String.mk v)] }) := by
  refine ⟨rfl, ?_, ?_, ?_, ?_, ?_⟩
  · intro h
    simp [parseRobotsLine, h]
  · intro h
    by_cases he : goTrim raw = ""
    · simp [parseRobotsLine, he]
    · simp [parseRobotsLine, he, h]
  · intro h
    by_cases he : goTrim raw = ""
    · simp [parseRobotsLine, he]
    · by_cases hh : ("#".data).isPrefixOf (goTrim raw).data = true
      · simp [parseRobotsLine, he, hh]
      · simp only [Bool.not_eq_true] at hh
        simp [parseRobotsLine, he, hh, h]
  · intro hrec k v hsplit hmem
    have he : goTrim raw ≠ "" := by
      intro he0
      rw [he0] at hsplit
      cases hsplit
    by_cases hh : ("#".data).isPrefixOf (goTrim raw).data = true
    · simp [parseRobotsLine, he, hh]
    · simp only [Bool.not_eq_true] at hh
      rw [List.mem_cons, List.mem_cons, List.mem_singleton] at hmem
      rcases hmem with hk | hk | hk
      · simp [parseRobotsLine, he, hh, hsplit, hk, hrec]
      · simp [parseRobotsLine, he, hh, hsplit, hk, hrec]
      · simp [parseRobotsLine, he, hh, hsplit, hk, hrec]
  · intro k v hsplit he hh hk
    simp [parseRobotsLine, he, hh, hsplit, hk]

/-- C10 amended witness: the line-handling theorem applied to a blank line
and to a `Disallow` directive arriving before any `user-agent` line; both
leave the fresh parser state unchanged. -/
theorem parse_robots_line_witness :
    goTrim "   " = "" ∧
    parseRobotsLine initRobotsParser "   " = initRobotsParser ∧
    initRobotsParser.inRecord = false ∧
    parseRobotsLine initRobotsParser "Disallow: /private" = initRobotsParser :=
  ⟨by decide,
   (parse_robots_total_and_line_handling "" initRobotsParser "   ").2.1
     (by decide),
   rfl,
   (parse_robots_total_and_line_handling "" initRobotsParser
       "Disallow: /private").2.2.2.2.1 rfl
     ("Disallow".data) (" /private".data) (by decide) (by decide)⟩

/-! ## C9: URL queue dedup index (types.go `URLQueue.Add/Pop/Contains`
lines 194-226, queue/manager.go `Manager.Remove` lines 220-238).

Only the `URL` field of a `Job` is consulted by these operations; the
remaining `Job` fields do not affect them and are omitted.  The `Index`
map (`map[string]bool` holding only `true` entries) is modelled as the list
of its keys; `Add` keeps it duplicate-free. -/

structure Job where
  url : String
  deriving Repr, DecidableEq

structure URLQueue where
  jobs : List Job
  index : List String
  deriving Repr, DecidableEq

/-- `URLQueue.Add` (types.go lines 194-205). -/
def URLQueue.add (q : URLQueue) (job : Job) : URLQueue × Bool :=
  if job.url ∈ q.index then (q, false)
  else ({ jobs := q.jobs ++ [job], index := q.index ++ [job.url] }, true)

/-- `URLQueue.Pop` (types.go lines 208-219): removes the head job and leaves
`Index` untouched. -/
def URLQueue.pop (q : URLQueue) : URLQueue × Option Job :=
  match q.jobs with
  | [] => (q, none)
  | j :: rest => ({ q with jobs := rest }, some j)

/-- `URLQueue.Contains` (types.go lines 222-226): a lookup in `Index`. -/
def URLQueue.containsURL (q : URLQueue) (url : String) : Bool :=
  decide (url ∈ q.index)

/-- The scan-and-remove loop of `Manager.Remove` (manager.go lines 229-235):
drop the first job with the given URL, or `none` when no job matches. -/
def removeFirstJob : List Job → String → Option (List Job)
  | [], _ => none
  | j :: rest, url =>
    if j.url = url then some rest
    else (removeFirstJob rest url).map (fun r => j :: r)

/-- `Manager.Remove` (queue/manager.go lines 220-238): refuse when the URL is
not in the index; otherwise scan the jobs, and only when a queued job
carries the URL remove it and delete the index entry. -/
def managerRemove (q : URLQueue) (url : String) : URLQueue × Bool :=
  if q.containsURL url = false then (q, false)
  else
    match removeFirstJob q.jobs url with
    | some jobs' => ({ jobs := jobs', index := q.index.erase url }, true)
    | none => (q, false)

/-- A queue operation available to the crawl loop (everything except the
manager's explicit `Remove`). -/
inductive QOp where
  | add (job : Job)
  | pop
  deriving Repr, DecidableEq

def applyQOp (q : URLQueue) : QOp → URLQueue
  | .add job => (q.add job).1
  | .pop => q.pop.1

def applyQOps (q : URLQueue) (ops : List QOp) : URLQueue :=
  ops.foldl applyQOp q

theorem containsURL_applyQOp (q : URLQueue) (u : String) (op : QOp)
    (h : q.containsURL u = true) : (applyQOp q op).containsURL u = true := by
  cases op with
  | add job =>
    show ((q.add job).1).containsURL u = true
    unfold URLQueue.add
    by_cases hmem : job.url ∈ q.index
    · rw [if_pos hmem]
      exact h
    · rw [if_neg hmem]
      unfold URLQueue.containsURL at h ⊢
      simp only [decide_eq_true_eq] at h ⊢
      exact List.mem_append_left _ h
  | pop =>
    show (q.pop.1).containsURL u = true
    unfold URLQueue.pop
    cases q.jobs with
    | nil => exact h
    | cons j rest => exact h

theorem removeFirstJob_some (jobs : List Job) (u : String)
    (h : ∃ j ∈ jobs, j.url = u) : ∃ jobs', removeFirstJob jobs u = some jobs' := by
  induction jobs with
  | nil =>
    obtain ⟨j, hj, _⟩ := h
    cases hj
  | cons j rest ih =>
    by_cases hu : j.url = u
    · exact ⟨rest, by simp [removeFirstJob, hu]⟩
    · obtain ⟨j0, hj0, hju⟩ := h
      rw [List.mem_cons] at hj0
      rcases hj0 with rfl | hj0
      · exact absurd hju hu
      · obtain ⟨jobs', hj'⟩ := ih ⟨j0, hj0, hju⟩
        exact ⟨j :: jobs', by simp [removeFirstJob, hu, hj']⟩

/-- C9: a `URLQueue`'s dedup index entry is never removed by `Pop` (the index
is untouched); once `Contains u` holds it keeps holding across any sequence
of `Add`/`Pop` operations, and every later `Add` of a job with URL `u`
returns `false`; `Add` and `Pop` keep the index duplicate-free; and the
manager's explicit `Remove u` — when a queued job carries `u` — is what
deletes the index entry (it succeeds and `Contains u` becomes false). -/
theorem urlqueue_index_persistent (q : URLQueue) (u : String) (ops : List QOp)
    (job : Job) :
    (q.pop.1.index = q.index) ∧
    (q.containsURL u = true → (applyQOps q ops).containsURL u = true) ∧
    (q.containsURL u = true → job.url = u →
      ((applyQOps q ops).add job).2 = false) ∧
    (q.index.Nodup → (q.add job).1.index.Nodup ∧ q.pop.1.index.Nodup) ∧
    (q.containsURL u = true → (∃ j ∈ q.jobs, j.url = u) → q.index.Nodup →
      (managerRemove q u).2 = true ∧
      (managerRemove q u).1.containsURL u = false) := by
  have hkeep : ∀ (q0 : URLQueue), q0.containsURL u = true →
      (applyQOps q0 ops).containsURL u = true := by
    intro q0 h0
    induction ops generalizing q0 with
    | nil => exact h0
    | cons op rest ih =>
      exact ih (applyQOp q0 op) (containsURL_applyQOp q0 u op h0)
  refine ⟨?_, hkeep q, ?_, ?_, ?_⟩
  · unfold URLQueue.pop
    cases q.jobs <;> rfl
  · intro h hju
    have h2 := hkeep q h
    unfold URLQueue.add
    unfold URLQueue.containsURL at h2
    simp only [decide_eq_true_eq] at h2
    rw [hju]
    rw [if_pos h2]
  · intro hnd
    constructor
    · unfold URLQueue.add
      split
      · exact hnd
      · next hmem =>
        simp only
        rw [List.nodup_append]
        refine ⟨hnd, List.nodup_singleton _, ?_⟩
        intro a ha hb
        rw [List.mem_singleton] at hb
        subst hb
        exact hmem ha
    · unfold URLQueue.pop
      cases q.jobs <;> exact hnd
  · intro hcon hjob hnd
    obtain ⟨jobs', hrm⟩ := removeFirstJob_some q.jobs u hjob
    unfold managerRemove
    have hne : ¬ (q.containsURL u = false) := by
      rw [hcon]
      exact fun hcc => by cases hcc
    rw [if_neg hne, hrm]
    refine ⟨rfl, ?_⟩
    unfold URLQueue.containsURL
    simp only [decide_eq_false_iff_not]
    exact hnd.not_mem_erase

/-- C9 witness: the persistence theorem applied to a queue holding one job
for `http://a/`: after popping it, `Contains` still holds and a re-`Add`
returns false; the manager's `Remove` deletes the entry. -/
theorem urlqueue_index_persistent_witness :
    (URLQueue.mk [Job.mk "http://a/"] ["http://a/"]).containsURL "http://a/" =
      true ∧
    (applyQOps (URLQueue.mk [Job.mk "http://a/"] ["http://a/"])
      [QOp.pop]).containsURL "http://a/" = true ∧
    ((applyQOps (URLQueue.mk [Job.mk "http://a/"] ["http://a/"])
      [QOp.pop]).add (Job.mk "http://a/")).2 = false ∧
    (managerRemove (URLQueue.mk [Job.mk "http://a/"] ["http://a/"])
      "http://a/").2 = true ∧
    (managerRemove (URLQueue.mk [Job.mk "http://a/"] ["http://a/"])
      "http://a/").1.containsURL "http://a/" = false :=
  ⟨by decide,
   (urlqueue_index_persistent (URLQueue.mk [Job.mk "http://a/"] ["http://a/"])
     "http://a/" [QOp.pop] (Job.mk "http://a/")).2.1 (by decide),
   (urlqueue_index_persistent (URLQueue.mk [Job.mk "http://a/"] ["http://a/"])
     "http://a/" [QOp.pop] (Job.mk "http://a/")).2.2.1 (by decide) rfl,
   ((urlqueue_index_persistent (URLQueue.mk [Job.mk "http://a/"] ["http://a/"])
     "http://a/" [QOp.pop] (Job.mk "http://a/")).2.2.2.2 (by decide)
     ⟨Job.mk "http://a/", by decide, rfl⟩ (by decide)).1,
   ((urlqueue_index_persistent (URLQueue.mk [Job.mk "http://a/"] ["http://a/"])
     "http://a/" [QOp.pop] (Job.mk "http://a/")).2.2.2.2 (by decide)
     ⟨Job.mk "http://a/", by decide, rfl⟩ (by decide)).2⟩

/-! ## C4: single-stream download with resume
(manager.go `downloadSingle` lines 699-811).

The HTTP response is a record supplied by a `server` function of the sent
Range header; `bodyLen` is the number of bytes produced by reading the
(possibly decoded) body, `contentLength` is `resp.ContentLength` (`int64`,
may be `-1`).  Decompressor-construction errors are not modelled — the
environment supplies the decoded byte count directly. -/

structure HTTPRespE where
  status : Nat
  contentLength : Int
  contentEncoding : String
  bodyLen : Nat
  deriving Repr, DecidableEq

/-- The `Content-Encoding` switch (lines 769-792): `gzip`/`x-gzip`/`deflate`
wrap the body in a decompressor; `identity`, empty and unknown encodings
copy the raw body. -/
def isCompressedEncoding (enc : String) : Bool :=
  goToLower enc = "gzip" || goToLower enc = "x-gzip" || goToLower enc = "deflate"

/-- The resume decision of `downloadSingle` (lines 706-717): with `continue`
set and an existing output file of positive size `s`, request
`Range: bytes=s-`; otherwise send no Range header. -/
def downloadSingleRange (contOpt : Bool) (existingSize : Option Nat) :
    Option Nat :=
  let fileSize : Nat := if contOpt then existingSize.getD 0 else 0
  if 0 < fileSize then some fileSize else none

/-- The literal Range header sent for a resume offset
(`fmt.Sprintf("bytes=%d-", fileSize)`). -/
def rangeHeaderString (r : Option Nat) : String :=
  match r with
  | none => ""
  | some s => "bytes=" ++ toString s ++ "-"

/-- The copy-and-verify phase (lines 794-808): copy the body, then, when the
content is uncompressed and a positive Content-Length is known, require the
copied byte count to equal it; the result is the final file size
(`fileSize` existing bytes in append mode plus the copied bytes). -/
def downloadSingleBody (fileSize : Nat) (resp : HTTPRespE) :
    Except String Nat :=
  if resp.contentLength > 0 ∧ isCompressedEncoding resp.contentEncoding = false ∧
      (resp.bodyLen : Int) ≠ resp.contentLength then
    .error "下载大小不匹配"
  else .ok (fileSize + resp.bodyLen)

/-- The status handling of `downloadSingle` (lines 726-745): with a Range
header sent, 206 keeps the resume offset and appends, 200 resets the offset
to 0 (the file is truncated by `os.Create`), anything else fails; without a
Range header only 200 is accepted. -/
def downloadSingleWith (rangeReq : Option Nat) (resp : HTTPRespE) :
    Except String Nat :=
  match rangeReq with
  | some fileSize =>
    if resp.status = 206 then downloadSingleBody fileSize resp
    else if resp.status = 200 then downloadSingleBody 0 resp
    else .error ("HTTP错误: " ++ toString resp.status)
  | none =>
    if resp.status ≠ 200 then .error ("HTTP错误: " ++ toString resp.status)
    else downloadSingleBody 0 resp

/-- `downloadSingle` (lines 699-811): decide the Range header, send the GET
(`server`), handle the status, then copy and verify. -/
def downloadSingle (contOpt : Bool) (existingSize : Option Nat)
    (server : Option Nat → HTTPRespE) : Except String Nat :=
  downloadSingleWith (downloadSingleRange contOpt existingSize)
    (server (downloadSingleRange contOpt existingSize))

/-- C4: with `continue` enabled and an existing output file of size `s > 0`,
the request carries `Range: bytes=s-`; when the server answers 206 with the
missing suffix, the body is appended and the final size is the full resource
length; when it answers 200 with the whole body, the file is truncated and
refetched and the final size is again the full length; any other status
fails. -/
theorem download_single_resume (s total : Nat)
    (server : Option Nat → HTTPRespE) (hs : 0 < s) :
    downloadSingleRange true (some s) = some s ∧
    rangeHeaderString (downloadSingleRange true (some s)) =
      "bytes=" ++ toString s ++ "-" ∧
    ((server (some s)).status = 206 → s ≤ total →
      (server (some s)).bodyLen = total - s →
      (server (some s)).contentLength = ((total - s : Nat) : Int) →
      isCompressedEncoding (server (some s)).contentEncoding = false →
      downloadSingle true (some s) server = .ok total) ∧
    ((server (some s)).status = 200 →
      (server (some s)).bodyLen = total →
      (server (some s)).contentLength = (total : Int) →
      isCompressedEncoding (server (some s)).contentEncoding = false →
      downloadSingle true (some s) server = .ok total) ∧
    ((server (some s)).status ≠ 206 → (server (some s)).status ≠ 200 →
      downloadSingle true (some s) server =
        .error ("HTTP错误: " ++ toString (server (some s)).status)) := by
  have hr : downloadSingleRange true (some s) = some s := by
    simp [downloadSingleRange, hs]
  have hds : downloadSingle true (some s) server =
      downloadSingleWith (some s) (server (some s)) := by
    unfold downloadSingle
    rw [hr]
  have hwith : ∀ (fileSize : Nat) (resp : HTTPRespE),
      downloadSingleWith (some fileSize) resp =
        if resp.status = 206 then downloadSingleBody fileSize resp
        else if resp.status = 200 then downloadSingleBody 0 resp
        else .error ("HTTP错误: " ++ toString resp.status) :=
    fun _ _ => rfl
  refine ⟨hr, ?_, ?_, ?_, ?_⟩
  · rw [hr]
    rfl
  · intro h206 hle hbody hcl henc
    rw [hds, hwith, if_pos h206]
    unfold downloadSingleBody
    have hcond : ¬((server (some s)).contentLength > 0 ∧
        isCompressedEncoding (server (some s)).contentEncoding = false ∧
        ((server (some s)).bodyLen : Int) ≠ (server (some s)).contentLength) := by
      rintro ⟨_, _, h3⟩
      rw [hbody, hcl] at h3
      exact h3 rfl
    rw [if_neg hcond, hbody]
    congr 1
    omega
  · intro h200 hbody hcl henc
    rw [hds, hwith, if_neg (by rw [h200]; decide), if_pos h200]
    unfold downloadSingleBody
    have hcond : ¬((server (some s)).contentLength > 0 ∧
        isCompressedEncoding (server (some s)).contentEncoding = false ∧
        ((server (some s)).bodyLen : Int) ≠ (server (some s)).contentLength) := by
      rintro ⟨_, _, h3⟩
      rw [hbody, hcl] at h3
      exact h3 rfl
    rw [if_neg hcond, hbody]
    congr 1
    omega
  · intro hn206 hn200
    rw [hds, hwith, if_neg hn206, if_neg hn200]

/-- C4 witness: the resume theorem at `s = 5`, `total = 12` against a server
answering 206 with the 7 missing bytes. -/
theorem download_single_resume_witness :
    0 < 5 ∧
    downloadSingleRange true (some 5) = some 5 ∧
    downloadSingle true (some 5)
      (fun _ => HTTPRespE.mk 206 7 "" 7) = .ok 12 :=
  ⟨by decide,
   (download_single_resume 5 12 (fun _ => HTTPRespE.mk 206 7 "" 7)
     (by decide)).1,
   (download_single_resume 5 12 (fun _ => HTTPRespE.mk 206 7 "" 7)
     (by decide)).2.2.1 rfl (by decide) rfl (by decide) (by decide)⟩

/-! ## C7: URL skipping in the HTML link extractors
(`Parser.extractURLs` in the http/html part, lines 665-721, with
`normalizeURL`, lines 793-818; and `HTMLExtractor.resolveURL` in
internal/core/parser/html.go, lines 109-135).

`net/url.Parse` is modelled on the fragment needed here: a URL is its
scheme plus the remainder; `Parse` fails on ASCII control characters and on
a leading `:`; `String()` reproduces `scheme:rest` (faithful for inputs
without percent-escapes or characters needing re-encoding, which covers
every string used below).  Relative-reference resolution keeps the base
scheme/authority and splices the reference without dot-segment removal; no
theorem depends on its result. -/

structure GoURL where
  scheme : String
  rest : String
  deriving Repr, DecidableEq

def isSchemeChar (c : Char) : Bool :=
  c.isAlpha || c.isDigit || c = '+' || c = '-' || c = '.'

/-- `getScheme`: scan for `scheme:`; `none` when the string has no scheme
prefix (first char not a letter, or no colon reached). -/
def schemeSplit : List Char → List Char → Option (List Char × List Char)
  | [], _ => none
  | c :: rest, acc =>
    if c = ':' then some (acc.reverse, rest)
    else if (if acc.isEmpty then c.isAlpha else isSchemeChar c) then
      schemeSplit rest (c :: acc)
    else none

def goParseURL (s : String) : Option GoURL :=
  if s.data.any (fun c => c.toNat < 32 || c.toNat = 127) then none
  else
    match schemeSplit s.data [] with
    | some ([], _) => none
    | some (sch, rest) => some ⟨goToLower (String.mk sch), String.mk rest⟩
    | none => some ⟨"", s⟩

/-- `URL.IsAbs`: the scheme is non-empty. -/
def goURLIsAbs (u : GoURL) : Bool := u.scheme ≠ ""

def goURLString (u : GoURL) : String :=
  if u.scheme = "" then u.rest else u.scheme ++ ":" ++ u.rest

/-- `//authority` prefix and the rest of a URL remainder. -/
def authSplit (rest : List Char) : List Char × List Char :=
  if ("//".data).isPrefixOf rest then
    let after := rest.drop 2
    ('/' :: '/' :: after.takeWhile (fun c => c ≠ '/'),
      after.dropWhile (fun c => c ≠ '/'))
  else ([], rest)

/-- The path up to and including its last `/`. -/
def dirOf (path : List Char) : List Char :=
  (path.reverse.dropWhile (fun c => c ≠ '/')).reverse

/-- `url.ResolveReference` on the modelled fragment (see section comment). -/
def resolveReference (base ref : GoURL) : GoURL :=
  if ("//".data).isPrefixOf ref.rest.data then
    { scheme := base.scheme, rest := ref.rest }
  else
    let (auth, basePath) := authSplit base.rest.data
    if ("/".data).isPrefixOf ref.rest.data then
      { scheme := base.scheme, rest := String.mk auth ++ ref.rest }
    else
      { scheme := base.scheme,
        rest := String.mk (auth ++ dirOf basePath) ++ ref.rest }

/-- `normalizeURL` (http/html part, lines 793-818). -/
def normalizeURL (urlStr baseURL : String) : Except String String :=
  if urlStr = "" then .error "空URL"
  else
    match goParseURL urlStr with
    | none => .error "解析URL失败"
    | some u =>
      if goURLIsAbs u = true then .ok (goURLString u)
      else if baseURL = "" then .error "相对URL需要baseURL"
      else
        match goParseURL baseURL with
        | none => .error "解析URL失败"
        | some base => .ok (goURLString (resolveReference base u))

/-- `ParsedURL` from types.go (the `Position` field is never set by
`extractURLs` and is omitted). -/
structure ParsedURL where
  url : String
  attr : String
  tag : String
  deriving Repr, DecidableEq

/-- The handling of one URL-bearing attribute value inside
`Parser.extractURLs` (lines 693-721): trim, skip empty / `#` /
`javascript:` / `data:` values and `action`/`formaction` attributes,
normalise the rest, and yield a `ParsedURL` on success. -/
def extractURLFromAttr (baseURL tag attrName attrVal : String) :
    Option ParsedURL :=
  if goTrim attrVal = "" then none
  else if goTrim attrVal = "#" then none
  else if ("javascript:".data).isPrefixOf (goTrim attrVal).data then none
  else if ("data:".data).isPrefixOf (goTrim attrVal).data then none
  else if attrName = "action" then none
  else if attrName = "formaction" then none
  else
    match normalizeURL (goTrim attrVal) baseURL with
    | .error _ => none
    | .ok normalized => some ⟨normalized, attrName, tag⟩

/-- `HTMLExtractor.resolveURL` (internal/core/parser/html.go lines
109-135): skip empty values and (lowercased) `javascript:` / `mailto:` /
`tel:` / `#` prefixes; parse, return absolute URLs as-is, resolve relative
ones against the base. -/
def resolveURL (baseURL : GoURL) (relativeURL : String) : String :=
  if relativeURL = "" then ""
  else if ("javascript:".data).isPrefixOf (goToLower relativeURL).data then ""
  else if ("mailto:".data).isPrefixOf (goToLower relativeURL).data then ""
  else if ("tel:".data).isPrefixOf (goToLower relativeURL).data then ""
  else if ("#".data).isPrefixOf (goToLower relativeURL).data then ""
  else
    match goParseURL relativeURL with
    | none => ""
    | some parsed =>
      if goURLIsAbs parsed = true then goURLString parsed
      else goURLString (resolveReference baseURL parsed)

/-- C7 counterexample: an `href` value `mailto:user@example.com` is not
skipped by `Parser.extractURLs` — it yields a `ParsedURL` (the skip list
there is only empty/`#`/`javascript:`/`data:`); and a `data:` URI is not
skipped by `HTMLExtractor.resolveURL` (its skip list lacks `data:`). -/
theorem extract_mailto_data_not_skipped :
    extractURLFromAttr "http://example.com/" "a" "href"
        "mailto:user@example.com" =
      some ⟨"mailto:user@example.com", "href", "a"⟩ ∧
    resolveURL ⟨"http", "//example.com/"⟩ "data:text/html,hello" =
      "data:text/html,hello" := by
  constructor <;> rfl

/-- C7 amended: `Parser.extractURLs` skips attribute values that trim to
the empty string or `#`, or begin with `javascript:` or `data:` (but not
`mailto:` or `tel:`); `HTMLExtractor.resolveURL` skips empty values and
values whose lowercase form begins with `javascript:`, `mailto:`, `tel:`
or `#` (but not `data:`). -/
theorem extract_skip_rules (baseURL tag attrName v : String) (base : GoURL) :
    (goTrim v = "" → extractURLFromAttr baseURL tag attrName v = none) ∧
    (goTrim v = "#" → extractURLFromAttr baseURL tag attrName v = none) ∧
    (("javascript:".data).isPrefixOf (goTrim v).data = true →
      extractURLFromAttr baseURL tag attrName v = none) ∧
    (("data:".data).isPrefixOf (goTrim v).data = true →
      extractURLFromAttr baseURL tag attrName v = none) ∧
    (v = "" → resolveURL base v = "") ∧
    (("javascript:".data).isPrefixOf (goToLower v).data = true →
      resolveURL base v = "") ∧
    (("mailto:".data).isPrefixOf (goToLower v).data = true →
      resolveURL base v = "") ∧
    (("tel:".data).isPrefixOf (goToLower v).data = true →
      resolveURL base v = "") ∧
    (("#".data).isPrefixOf (goToLower v).data = true →
      resolveURL base v = "") := by
  have hlow : ∀ pre : List Char, pre ≠ [] →
      pre.isPrefixOf (goToLower v).data = true → v ≠ "" := by
    intro pre hne hp hv
    subst hv
    cases pre with
    | nil => exact hne rfl
    | cons c cs => cases hp
  refine ⟨?_, ?_, ?_, ?_, ?_, ?_, ?_, ?_, ?_⟩
  · intro h
    unfold extractURLFromAttr
    simp [h]
  · intro h
    unfold extractURLFromAttr
    simp [h]
  · intro h
    unfold extractURLFromAttr
    have h1 : ¬ (goTrim v = "") := by
      intro h0
      rw [h0] at h
      exact absurd h (by decide)
    have h2 : ¬ (goTrim v = "#") := by
      intro h0
      rw [h0] at h
      exact absurd h (by decide)
    rw [if_neg h1, if_neg h2, if_pos h]
  · intro h
    unfold extractURLFromAttr
    have h1 : ¬ (goTrim v = "") := by
      intro h0
      rw [h0] at h
      exact absurd h (by decide)
    have h2 : ¬ (goTrim v = "#") := by
      intro h0
      rw [h0] at h
      exact absurd h (by decide)
    rw [if_neg h1, if_neg h2]
    by_cases hjs : ("javascript:".data).isPrefixOf (goTrim v).data = true
    · rw [if_pos hjs]
    · rw [if_neg hjs, if_pos h]
  · intro h
    unfold resolveURL
    simp [h]
  · intro h
    unfold resolveURL
    rw [if_neg (hlow _ (by decide) h), if_pos h]
  · intro h
    unfold resolveURL
    rw [if_neg (hlow _ (by decide) h)]
    by_cases h1 : ("javascript:".data).isPrefixOf (goToLower v).data = true
    · rw [if_pos h1]
    · rw [if_neg h1, if_pos h]
  · intro h
    unfold resolveURL
    rw [if_neg (hlow _ (by decide) h)]
    by_cases h1 : ("javascript:".data).isPrefixOf (goToLower v).data = true
    · rw [if_pos h1]
    · rw [if_neg h1]
      by_cases h2 : ("mailto:".data).isPrefixOf (goToLower v).data = true
      · rw [if_pos h2]
      · rw [if_neg h2, if_pos h]
  · intro h
    unfold resolveURL
    rw [if_neg (hlow _ (by decide) h)]
    by_cases h1 : ("javascript:".data).isPrefixOf (goToLower v).data = true
    · rw [if_pos h1]
    · rw [if_neg h1]
      by_cases h2 : ("mailto:".data).isPrefixOf (goToLower v).data = true
      · rw [if_pos h2]
      · rw [if_neg h2]
        by_cases h3 : ("tel:".data).isPrefixOf (goToLower v).data = true
        · rw [if_pos h3]
        · rw [if_neg h3, if_pos h]

/-- C7 amended witness: the skip theorem applied to a `javascript:` href
and a `MAILTO:` value (case-insensitive skip). -/
theorem extract_skip_rules_witness :
    goTrim "javascript:void(0)" = "javascript:void(0)" ∧
    extractURLFromAttr "http://e/" "a" "href" "javascript:void(0)" = none ∧
    resolveURL ⟨"http", "//e/"⟩ "MAILTO:x@y" = "" :=
  ⟨by decide,
   (extract_skip_rules "http://e/" "a" "href" "javascript:void(0)"
     ⟨"http", "//e/"⟩).2.2.1 (by decide),
   (extract_skip_rules "http://e/" "a" "href" "MAILTO:x@y"
     ⟨"http", "//e/"⟩).2.2.2.2.2.2.1 (by decide)⟩

/-- C8 amended witness: the amended theorem applied at
`total = 100`, `downloaded = 50`, `speed = 10` (ETA `5` seconds). -/
theorem calculateETA_spec_witness :
    (0 : Int) < 10 ∧ (50 : Int) ≤ 100 ∧
      calculateETA 100 50 10 = 5 ∧ 0 ≤ calculateETA 100 50 10 := by
  refine ⟨by norm_num, by norm_num, ?_,
    (calculateETA_spec 100 50 10).2.2 (by norm_num) (by norm_num)⟩
  rw [(calculateETA_spec 100 50 10).2.1 (by norm_num)]
  norm_num

